import Mathlib

/-!
Verification of the `xmux` compile-commands generator (`cc.py`) against its
specification.  The script is embedded shallowly: the filesystem is a tree of
named files and directories, `os.walk` / `os.path.join` / `os.path.relpath` /
`json.dump` are modelled by executable Lean functions faithful to the Python
semantics at the call sites the script uses, and the script's functions
`getCppFiles`, `generateCompileCommand` and `main` are translated directly.
-/

/-! ## Basic string helpers (models of Python string primitives) -/

/-- Boolean test that `l₁` is a prefix of `l₂` (character lists). -/
def isPre : List Char → List Char → Bool
  | [], _ => true
  | _ :: _, [] => false
  | a :: as, b :: bs => a == b && isPre as bs

/-- Model of Python `s.startswith(pre)`. -/
def pyStartsWith (s pre : String) : Bool := isPre pre.data s.data

/-- Model of Python `s.endswith(suf)`, the test used by `getCppFiles`:
a suffix match on the characters of the string. -/
def pyEndsWith (s suf : String) : Bool := isPre suf.data.reverse s.data.reverse

/-- Model of Python `' '.join(parts)` (also any other separator). -/
def pyJoin (sep : String) : List String → String
  | [] => ""
  | [x] => x
  | x :: xs => x ++ sep ++ pyJoin sep xs

/-- Model of `os.path.join(a, b)` for two arguments on POSIX:
an absolute second argument replaces the first; otherwise a separator is
inserted unless the first part is empty or already ends with one. -/
def osPathJoin (a b : String) : String :=
  if pyStartsWith b "/" then b
  else if a = "" ∨ pyEndsWith a "/" then a ++ b
  else a ++ "/" ++ b

/-- Model of `os.path.relpath(path, start)` specialised to the way the script
uses it: every path it is applied to lies strictly below `start`
(`path = start ++ "/" ++ rest`), in which case `relpath` returns `rest`.
Outside that case this model returns `path` unchanged. -/
def osPathRelpath (path start : String) : String :=
  if isPre (start.data ++ ['/']) path.data then
    String.mk (path.data.drop (start.data.length + 1))
  else path

/-! ## Filesystem model and `os.walk` -/

/-- One triple yielded by `os.walk`: a directory path, the names of its
subdirectories, and the names of its regular files, in listing order. -/
structure WalkFrame where
  root : String
  dirs : List String
  files : List String
deriving DecidableEq

/-- A directory listing: a finite sequence of named regular files and named
subdirectories (each with its own listing), in listing order. -/
inductive FSNode : Type where
  | nil : FSNode
  | fileEntry (name : String) (rest : FSNode) : FSNode
  | dirEntry (name : String) (contents : FSNode) (rest : FSNode) : FSNode
deriving DecidableEq

/-- The regular-file names of a listing, in order. -/
def nodeFiles : FSNode → List String
  | .nil => []
  | .fileEntry n r => n :: nodeFiles r
  | .dirEntry _ _ r => nodeFiles r

/-- The subdirectory names of a listing, in order. -/
def nodeDirNames : FSNode → List String
  | .nil => []
  | .fileEntry _ r => nodeDirNames r
  | .dirEntry n _ r => n :: nodeDirNames r

/-- The frames `os.walk` yields strictly below a directory whose listing is
the given node: for each subdirectory, its own frame followed by its
descendants' frames, then the later siblings' frames (top-down order). -/
def osWalkChildren (path : String) : FSNode → List WalkFrame
  | .nil => []
  | .fileEntry _ r => osWalkChildren path r
  | .dirEntry n c r =>
    (⟨osPathJoin path n, nodeDirNames c, nodeFiles c⟩ :: osWalkChildren (osPathJoin path n) c)
      ++ osWalkChildren path r

/-- Model of `os.walk(path)` on an existing directory with listing `t`:
the directory's own frame, then all descendant frames top-down. -/
def osWalk (path : String) (t : FSNode) : List WalkFrame :=
  ⟨path, nodeDirNames t, nodeFiles t⟩ :: osWalkChildren path t

/-- Model of `os.walk(path)` where the directory may be missing: `os.walk`
on a nonexistent path yields no frames at all, because the `scandir` error is
handed to the default `onerror=None` and swallowed. -/
def osWalkAt (path : String) : Option FSNode → List WalkFrame
  | none => []
  | some t => osWalk path t

/-! ## The script's configuration constants and functions -/

/-- `compiler = 'clang++'` from `cc.py`. -/
def compiler : String := "clang++"

/-- `flags = [...]` from `cc.py`. -/
def flags : List String := ["-std=c++20", "-Wall", "-Wextra", "-Iinclude"]

/-- `includeDirs = ['include']` from `cc.py`. -/
def includeDirs : List String := ["include"]

/-- `srcDir = os.path.join(projectRoot, 'src')` from `cc.py`.  `projectRoot`
(`os.path.abspath('.')`) is a run-time value and is a parameter here. -/
def srcDir (projectRoot : String) : String := osPathJoin projectRoot "src"

/-- `buildDir = os.path.join(projectRoot, 'build')` from `cc.py`. -/
def buildDir (projectRoot : String) : String := osPathJoin projectRoot "build"

/-- `getCppFiles(directory)` from `cc.py`: walk the directory, and for each
yielded triple append `os.path.join(root, file)` for every listed file whose
name ends with `'.cpp'`.  The filesystem tree at `directory` (or `none` when
it does not exist) is the explicit second argument. -/
def getCppFiles (directory : String) (tree : Option FSNode) : List String :=
  (osWalkAt directory tree).flatMap (fun fr =>
    (fr.files.filter (fun file => pyEndsWith file ".cpp")).map
      (fun file => osPathJoin fr.root file))

/-- One entry of the compilation database, with the dict keys of `cc.py` in
insertion order. -/
structure CompileEntry where
  directory : String
  command : String
  file : String
deriving DecidableEq

/-- `generateCompileCommand(filePath)` from `cc.py`. -/
def generateCompileCommand (projectRoot : String) (filePath : String) : CompileEntry :=
  let relPath := osPathRelpath filePath projectRoot
  { directory := projectRoot
  , command := compiler ++ " " ++ pyJoin " " flags ++ " -c " ++ relPath ++ " -o /dev/null"
  , file := relPath }

/-! ## JSON serialisation (model of `json.dump(commands, f, indent=4)`) -/

/-- Lower-case hexadecimal digit, as produced by Python's `'%04x'`. -/
def hexDigit (n : Nat) : Char :=
  if n < 10 then Char.ofNat (48 + n) else Char.ofNat (87 + n)

/-- Four lower-case hex digits, as in Python's `'\\u%04x'` escapes. -/
def hex4 (n : Nat) : List Char :=
  [hexDigit (n / 4096 % 16), hexDigit (n / 256 % 16), hexDigit (n / 16 % 16), hexDigit (n % 16)]

/-- Model of how `json.dump` (with the default `ensure_ascii=True`) writes one
character of a string: named escapes for the JSON control shorthands, `\u`
escapes (with surrogate pairs above `0xffff`) for other characters outside
printable ASCII, and the character itself otherwise. -/
def escCharL (c : Char) : List Char :=
  if c = '"' then ['\\', '"']
  else if c = '\\' then ['\\', '\\']
  else if c = '\n' then ['\\', 'n']
  else if c = '\r' then ['\\', 'r']
  else if c = '\t' then ['\\', 't']
  else if c = '\x08' then ['\\', 'b']
  else if c = '\x0c' then ['\\', 'f']
  else if c.toNat < 32 ∨ 126 < c.toNat then
    if c.toNat < 65536 then '\\' :: 'u' :: hex4 c.toNat
    else ('\\' :: 'u' :: hex4 (55296 + (c.toNat - 65536) / 1024))
      ++ ('\\' :: 'u' :: hex4 (56320 + (c.toNat - 65536) % 1024))
  else [c]

/-- The escaped body of a JSON string literal. -/
def escapeList : List Char → List Char
  | [] => []
  | c :: cs => escCharL c ++ escapeList cs

/-- A JSON string literal as `json.dump` writes it. -/
def pyJsonStr (s : String) : String :=
  String.mk ('"' :: (escapeList s.data ++ ['"']))

/-- One entry object as `json.dump(..., indent=4)` writes it inside the
top-level array (keys in dict insertion order, `': '` after each key,
items separated by `',' + newline + indent`). -/
def pyDumpEntry (e : CompileEntry) : String :=
  "\x7b\n        \"directory\": " ++ pyJsonStr e.directory ++
  ",\n        \"command\": " ++ pyJsonStr e.command ++
  ",\n        \"file\": " ++ pyJsonStr e.file ++ "\n    \x7d"

/-- The comma-separated entry objects of a nonempty database. -/
def pyDumpItems : List CompileEntry → String
  | [] => ""
  | [e] => pyDumpEntry e
  | e :: es => pyDumpEntry e ++ ",\n    " ++ pyDumpItems es

/-- Model of `json.dump(entries, f, indent=4)`: the exact text written. -/
def pyDump : List CompileEntry → String
  | [] => "[]"
  | es => "[\n    " ++ pyDumpItems es ++ "\n]"

/-! ## The `main` function and its effects -/

/-- The list `commands` built by `main`. -/
def mainEntries (projectRoot : String) (srcTree : Option FSNode) : List CompileEntry :=
  (getCppFiles (srcDir projectRoot) srcTree).map (generateCompileCommand projectRoot)

/-- The exact text `main` writes to `compile_commands.json`. -/
def mainOutput (projectRoot : String) (srcTree : Option FSNode) : String :=
  pyDump (mainEntries projectRoot srcTree)

/-- Ambient state `main` can affect: named files (later writes shadow earlier
ones) and the standard-output lines printed so far. -/
structure World where
  files : List (String × String)
  stdout : List String
deriving DecidableEq

/-- Writing a file: the new content shadows any earlier content at the path. -/
def fsWrite (files : List (String × String)) (path contents : String) :
    List (String × String) :=
  (path, contents) :: files

/-- Reading a file: the most recently written content at the path. -/
def fsRead (files : List (String × String)) (path : String) : Option String :=
  (files.find? (fun e => e.1 == path)).map (fun e => e.2)

/-- `main()` from `cc.py`: collect the `.cpp` files under `srcDir`, build the
entries, write the JSON text to `compile_commands.json` in the working
directory, and print the confirmation line. -/
def runMain (projectRoot : String) (srcTree : Option FSNode) (w : World) : World :=
  { files := fsWrite w.files "compile_commands.json" (mainOutput projectRoot srcTree)
  , stdout := w.stdout ++ ["[+] compile_commands.json generated."] }

/-! ## Specification-side definitions -/

/-- All regular files below a directory whose listing is the given node,
as pairs of full path and bare name.  This enumerates the tree directly by
structural recursion, independently of `osWalk`. -/
def filesUnder (path : String) : FSNode → List (String × String)
  | .nil => []
  | .fileEntry n r => (osPathJoin path n, n) :: filesUnder path r
  | .dirEntry n c r => filesUnder (osPathJoin path n) c ++ filesUnder path r

/-- Every file and directory name in the tree is a bare name, not an absolute
path (true of every real directory listing). -/
def validNamesB : FSNode → Bool
  | .nil => true
  | .fileEntry n r => !pyStartsWith n "/" && validNamesB r
  | .dirEntry n c r => !pyStartsWith n "/" && validNamesB c && validNamesB r

/-- `pat` occurs as a contiguous substring of `s`. -/
def strContainsSubstr (s pat : String) : Prop := ∃ u v, s = u ++ pat ++ v

/-! ## A JSON well-formedness checker

`jsonArrayCount` lexes a string into JSON punctuation and string-literal
tokens and accepts exactly the documents that are a single top-level array
of objects with string keys and string values, returning the number of array
elements.  It is used to state that the script's output is valid JSON parsing
to an array of the right length. -/

/-- JSON tokens (string literals are not distinguished by content). -/
inductive JTok : Type where
  | lbracket | rbracket | lbrace | rbrace | comma | colon | str
deriving DecidableEq

/-- Lexer.  The Boolean argument is true inside a string literal, where a
backslash always consumes the following character; outside literals only
punctuation and whitespace may occur. -/
def tokenizeAux : List Char → Bool → Option (List JTok)
  | [], false => some []
  | [], true => none
  | c :: r, true =>
    if c = '"' then (tokenizeAux r false).map (fun t => JTok.str :: t)
    else if c = '\\' then
      match r with
      | [] => none
      | _ :: r2 => tokenizeAux r2 true
    else tokenizeAux r true
  | c :: r, false =>
    if c = '"' then tokenizeAux r true
    else if c = ' ' ∨ c = '\n' ∨ c = '\t' ∨ c = '\r' then tokenizeAux r false
    else if c = '[' then (tokenizeAux r false).map (fun t => JTok.lbracket :: t)
    else if c = ']' then (tokenizeAux r false).map (fun t => JTok.rbracket :: t)
    else if c = '\x7b' then (tokenizeAux r false).map (fun t => JTok.lbrace :: t)
    else if c = '\x7d' then (tokenizeAux r false).map (fun t => JTok.rbrace :: t)
    else if c = ',' then (tokenizeAux r false).map (fun t => JTok.comma :: t)
    else if c = ':' then (tokenizeAux r false).map (fun t => JTok.colon :: t)
    else none

/-- Lex a whole string. -/
def tokenize (s : String) : Option (List JTok) :=
  tokenizeAux s.data false

mutual
/-- After a complete array element: expect the closing bracket at the end of
the document, or a comma and the next object. -/
def countLoop : List JTok → Nat → Option Nat
  | [JTok.rbracket], n => some n
  | JTok.comma :: JTok.lbrace :: JTok.rbrace :: r, n => countLoop r (n + 1)
  | JTok.comma :: JTok.lbrace :: JTok.str :: JTok.colon :: JTok.str :: r, n =>
    countFields r (n + 1)
  | _, _ => none
/-- After a `key: value` pair inside an object: expect another pair or the
closing brace. -/
def countFields : List JTok → Nat → Option Nat
  | JTok.comma :: JTok.str :: JTok.colon :: JTok.str :: r, n => countFields r n
  | JTok.rbrace :: r, n => countLoop r n
  | _, _ => none
end

/-- The number of elements of the string, read as a JSON array of objects of
string fields; `none` if the string is not such a document. -/
def jsonArrayCount (s : String) : Option Nat :=
  match tokenize s with
  | some (JTok.lbracket :: r) =>
    if r = [JTok.rbracket] then some 0
    else countLoop (JTok.comma :: r) 0
  | _ => none

/-- The token list of one serialised entry object. -/
def objToks : List JTok :=
  [JTok.lbrace, JTok.str, JTok.colon, JTok.str, JTok.comma, JTok.str, JTok.colon,
   JTok.str, JTok.comma, JTok.str, JTok.colon, JTok.str, JTok.rbrace]

/-- The token lists of `n` further comma-separated entry objects. -/
def sepObjs : Nat → List JTok
  | 0 => []
  | n + 1 => (JTok.comma :: objToks) ++ sepObjs n

/-! ## String lemmas -/

theorem strExt {a b : String} (h : a.data = b.data) : a = b := by
  cases a
  cases b
  exact congrArg String.mk h

theorem isPre_iff : ∀ l₁ l₂ : List Char, isPre l₁ l₂ = true ↔ ∃ t, l₂ = l₁ ++ t := by
  intro l₁
  induction l₁ with
  | nil => intro l₂; simp [isPre]
  | cons a as ih =>
    intro l₂
    cases l₂ with
    | nil => simp [isPre]
    | cons b bs =>
      simp [isPre, ih bs]
      intro x _
      exact eq_comm

theorem pyEndsWith_iff (s suf : String) :
    pyEndsWith s suf = true ↔ ∃ p : String, s = p ++ suf := by
  unfold pyEndsWith
  rw [isPre_iff]
  constructor
  · rintro ⟨t, ht⟩
    refine ⟨String.mk t.reverse, strExt ?_⟩
    have h2 := congrArg List.reverse ht
    simp at h2
    simpa [String.data_append] using h2
  · rintro ⟨p, hp⟩
    exact ⟨p.data.reverse, by simp [hp, String.data_append]⟩

theorem pyStartsWith_iff (s pre : String) :
    pyStartsWith s pre = true ↔ ∃ t : String, s = pre ++ t := by
  unfold pyStartsWith
  rw [isPre_iff]
  constructor
  · rintro ⟨t, ht⟩
    exact ⟨String.mk t, strExt (by simpa [String.data_append] using ht)⟩
  · rintro ⟨t, ht⟩
    exact ⟨t.data, by simp [ht, String.data_append]⟩

theorem append_empty_str (s : String) : s ++ "" = s :=
  strExt (by simp [String.data_append])

theorem startsWith_slash_ne_empty {s : String} (h : pyStartsWith s "/" = true) : s ≠ "" := by
  rw [pyStartsWith_iff] at h
  obtain ⟨t, ht⟩ := h
  intro he
  rw [he] at ht
  have := congrArg String.data ht
  simp [String.data_append] at this

/-! ## `osPathJoin` lemmas -/

theorem osPathJoin_shape {b : String} (a : String) (hb : pyStartsWith b "/" = false) :
    ∃ s : String, osPathJoin a b = a ++ s := by
  unfold osPathJoin
  rw [hb]
  simp only [Bool.false_eq_true, if_false]
  split
  · exact ⟨b, rfl⟩
  · exact ⟨"/" ++ b, (String.append_assoc a "/" b)⟩

theorem osPathJoin_clean {a b : String} (ha : a ≠ "") (ha2 : pyEndsWith a "/" = false)
    (hb : pyStartsWith b "/" = false) : osPathJoin a b = a ++ "/" ++ b := by
  unfold osPathJoin
  rw [hb, ha2]
  simp [ha]

/-! ## Walk lemmas -/

theorem validNamesB_fileEntry {n : String} {r : FSNode} (h : validNamesB (.fileEntry n r) = true) :
    pyStartsWith n "/" = false ∧ validNamesB r = true := by
  simpa [validNamesB, Bool.and_eq_true, Bool.not_eq_true'] using h

theorem validNamesB_dirEntry {n : String} {c r : FSNode}
    (h : validNamesB (.dirEntry n c r) = true) :
    pyStartsWith n "/" = false ∧ validNamesB c = true ∧ validNamesB r = true := by
  simpa [validNamesB, Bool.and_eq_true, Bool.not_eq_true', and_assoc] using h

theorem nodeFiles_valid : ∀ (node : FSNode), validNamesB node = true →
    ∀ f ∈ nodeFiles node, pyStartsWith f "/" = false := by
  intro node
  induction node with
  | nil => simp [nodeFiles]
  | fileEntry n r ih =>
    intro h f hf
    obtain ⟨hn, hr⟩ := validNamesB_fileEntry h
    rcases (List.mem_cons.mp hf) with h1 | h2
    · exact h1 ▸ hn
    · exact ih hr f h2
  | dirEntry n c r ihc ihr =>
    intro h f hf
    exact ihr (validNamesB_dirEntry h).2.2 f hf

theorem walkChildren_shape : ∀ (node : FSNode) (path : String), validNamesB node = true →
    ∀ fr ∈ osWalkChildren path node,
      (∃ s, fr.root = path ++ s) ∧ ∀ f ∈ fr.files, pyStartsWith f "/" = false := by
  intro node
  induction node with
  | nil => simp [osWalkChildren]
  | fileEntry n r ih =>
    intro path h fr hfr
    exact ih path (validNamesB_fileEntry h).2 fr hfr
  | dirEntry n c r ihc ihr =>
    intro path h fr hfr
    obtain ⟨hn, hc, hr⟩ := validNamesB_dirEntry h
    obtain ⟨x, hx⟩ := osPathJoin_shape path hn
    simp only [osWalkChildren, List.mem_append, List.mem_cons] at hfr
    rcases hfr with (h1 | h2) | h3
    · subst h1
      exact ⟨⟨x, hx⟩, nodeFiles_valid c hc⟩
    · obtain ⟨⟨s, hs⟩, hfiles⟩ := ihc (osPathJoin path n) hc fr h2
      refine ⟨⟨x ++ s, ?_⟩, hfiles⟩
      rw [hs, hx, String.append_assoc]
    · exact ihr path hr fr h3

theorem walk_shape (node : FSNode) (path : String) (h : validNamesB node = true) :
    ∀ fr ∈ osWalk path node,
      (∃ s, fr.root = path ++ s) ∧ ∀ f ∈ fr.files, pyStartsWith f "/" = false := by
  intro fr hfr
  rcases List.mem_cons.mp hfr with h1 | h2
  · subst h1
    exact ⟨⟨"", (append_empty_str path).symm⟩, nodeFiles_valid node h⟩
  · exact walkChildren_shape node path h fr h2

/-- Membership in `getCppFiles` unfolded to a statement about walk frames. -/
theorem mem_getCppFiles_iff (dir : String) (node : FSNode) (p : String) :
    p ∈ getCppFiles dir (some node) ↔
      ∃ fr ∈ osWalk dir node, ∃ f ∈ fr.files,
        pyEndsWith f ".cpp" = true ∧ p = osPathJoin fr.root f := by
  simp only [getCppFiles, osWalkAt, List.mem_flatMap, List.mem_map, List.mem_filter]
  constructor
  · rintro ⟨fr, hfr, f, ⟨hf, hcpp⟩, hp⟩
    exact ⟨fr, hfr, f, hf, hcpp, hp.symm⟩
  · rintro ⟨fr, hfr, f, hf, hcpp, hp⟩
    exact ⟨fr, hfr, f, ⟨hf, hcpp⟩, hp.symm⟩

/-- The file pairs enumerated by `filesUnder` are exactly those reachable from
the directory's own listing or from a walked descendant frame. -/
theorem mem_filesUnder : ∀ (node : FSNode) (path p f : String),
    (p, f) ∈ filesUnder path node ↔
      ((f ∈ nodeFiles node ∧ p = osPathJoin path f) ∨
        ∃ fr ∈ osWalkChildren path node, f ∈ fr.files ∧ p = osPathJoin fr.root f) := by
  intro node
  induction node with
  | nil => simp [filesUnder, nodeFiles, osWalkChildren]
  | fileEntry n r ih =>
    intro path p f
    simp only [filesUnder, nodeFiles, osWalkChildren, List.mem_cons, Prod.mk.injEq, ih path]
    constructor
    · rintro (⟨hp, hf⟩ | (⟨hf, hp⟩ | h2))
      · subst hf
        exact Or.inl ⟨Or.inl rfl, hp⟩
      · exact Or.inl ⟨Or.inr hf, hp⟩
      · exact Or.inr h2
    · rintro (⟨(hf | hf), hp⟩ | h2)
      · subst hf
        exact Or.inl ⟨hp, rfl⟩
      · exact Or.inr (Or.inl ⟨hf, hp⟩)
      · exact Or.inr (Or.inr h2)
  | dirEntry n c r ihc ihr =>
    intro path p f
    simp only [filesUnder, nodeFiles, osWalkChildren, List.mem_append, List.mem_cons,
      ihc (osPathJoin path n), ihr path]
    constructor
    · rintro ((⟨hf, hp⟩ | h2) | (⟨hf, hp⟩ | h3))
      · exact Or.inr ⟨_, Or.inl (Or.inl rfl), hf, hp⟩
      · obtain ⟨fr, hfr, hrest⟩ := h2
        exact Or.inr ⟨fr, Or.inl (Or.inr hfr), hrest⟩
      · exact Or.inl ⟨hf, hp⟩
      · obtain ⟨fr, hfr, hrest⟩ := h3
        exact Or.inr ⟨fr, Or.inr hfr, hrest⟩
    · rintro (⟨hf, hp⟩ | ⟨fr, (hfr | hfr) | hfr, hrest⟩)
      · exact Or.inr (Or.inl ⟨hf, hp⟩)
      · subst hfr
        exact Or.inl (Or.inl hrest)
      · exact Or.inl (Or.inr ⟨fr, hfr, hrest⟩)
      · exact Or.inr (Or.inr ⟨fr, hfr, hrest⟩)

/-! ## `osPathRelpath` lemmas -/

theorem osPathRelpath_append (pr rest : String) :
    osPathRelpath (pr ++ "/" ++ rest) pr = rest := by
  unfold osPathRelpath
  have hdata : (pr ++ "/" ++ rest).data = (pr.data ++ ['/']) ++ rest.data := by
    simp [String.data_append]
  have hc : isPre (pr.data ++ ['/']) ((pr ++ "/" ++ rest).data) = true := by
    rw [isPre_iff]
    exact ⟨rest.data, hdata⟩
  rw [if_pos hc]
  apply strExt
  show ((pr ++ "/" ++ rest).data.drop (pr.data.length + 1)) = rest.data
  rw [hdata, show pr.data.length + 1 = (pr.data ++ ['/']).length by simp]
  exact List.drop_left _ _

/-- Every file collected below `srcDir` lies below the project root:
`F = projectRoot ++ "/" ++ rest` for some `rest`. -/
theorem getCppFiles_under_root {pr : String} {node : FSNode} {F : String}
    (habs : pyStartsWith pr "/" = true) (hslash : pyEndsWith pr "/" = false)
    (hv : validNamesB node = true)
    (hF : F ∈ getCppFiles (srcDir pr) (some node)) :
    ∃ rest : String, F = pr ++ "/" ++ rest := by
  have hsrc : srcDir pr = pr ++ "/" ++ "src" :=
    osPathJoin_clean (startsWith_slash_ne_empty habs) hslash (by decide)
  obtain ⟨fr, hfr, f, hf, _, hp⟩ := (mem_getCppFiles_iff (srcDir pr) node F).mp hF
  obtain ⟨⟨s, hs⟩, hfiles⟩ := walk_shape node (srcDir pr) hv fr hfr
  obtain ⟨y, hy⟩ := osPathJoin_shape fr.root (hfiles f hf)
  refine ⟨"src" ++ s ++ y, ?_⟩
  rw [hp, hy, hs, hsrc, String.append_assoc (pr ++ "/") "src" s,
    String.append_assoc (pr ++ "/") ("src" ++ s) y]

/-! ## Substring lemmas for the command string -/

theorem substr_sandwich {lit : String} (u pat litv rp tail : String)
    (h : (u ++ pat) ++ litv = lit) :
    strContainsSubstr ((lit ++ rp) ++ tail) pat := by
  refine ⟨u, (litv ++ rp) ++ tail, ?_⟩
  rw [← h, String.append_assoc (u ++ pat) litv rp, String.append_assoc (u ++ pat) (litv ++ rp) tail]

theorem substr_tailpiece {lit : String} (u litc rp tail : String) (h : u ++ litc = lit) :
    strContainsSubstr ((lit ++ rp) ++ tail) (litc ++ rp) := by
  refine ⟨u, tail, ?_⟩
  rw [← h, String.append_assoc u litc rp]

/-! ## Filesystem-state lemmas -/

theorem fsRead_fsWrite_same (files : List (String × String)) (p c : String) :
    fsRead (fsWrite files p c) p = some c := by
  simp [fsRead, fsWrite, List.find?]

theorem fsRead_fsWrite_other (files : List (String × String)) (p c q : String) (h : q ≠ p) :
    fsRead (fsWrite files p c) q = fsRead files q := by
  have : (p == q) = false := by
    simp only [beq_eq_false_iff_ne, ne_eq]
    exact fun e => h e.symm
  simp [fsRead, fsWrite, List.find?, this]

/-! ## Lexer lemmas -/

theorem tokAux_quote_true (x : List Char) :
    tokenizeAux ('"' :: x) true = (tokenizeAux x false).map (fun t => JTok.str :: t) := by
  cases x with
  | nil => rfl
  | cons a as => rfl

theorem tokAux_quote_false (x : List Char) :
    tokenizeAux ('"' :: x) false = tokenizeAux x true := rfl

theorem tokAux_esc_step (c2 : Char) (r2 : List Char) :
    tokenizeAux ('\\' :: c2 :: r2) true = tokenizeAux r2 true := rfl

theorem tokAux_true_plain {c : Char} (h1 : ¬ c = '"') (h2 : ¬ c = '\\') (r : List Char) :
    tokenizeAux (c :: r) true = tokenizeAux r true := by
  cases r with
  | nil => rw [tokenizeAux.eq_3, if_neg h1, if_neg h2]
  | cons a as => rw [tokenizeAux.eq_4, if_neg h1, if_neg h2]

theorem hexDigit_ok : ∀ k < 16, ¬ hexDigit k = '"' ∧ ¬ hexDigit k = '\\' := by decide

theorem tokAux_hex4 (n : Nat) (rest : List Char) :
    tokenizeAux (hex4 n ++ rest) true = tokenizeAux rest true := by
  have h1 := hexDigit_ok (n / 4096 % 16) (Nat.mod_lt _ (by omega))
  have h2 := hexDigit_ok (n / 256 % 16) (Nat.mod_lt _ (by omega))
  have h3 := hexDigit_ok (n / 16 % 16) (Nat.mod_lt _ (by omega))
  have h4 := hexDigit_ok (n % 16) (Nat.mod_lt _ (by omega))
  simp only [hex4, List.cons_append, List.nil_append]
  rw [tokAux_true_plain h1.1 h1.2, tokAux_true_plain h2.1 h2.2,
    tokAux_true_plain h3.1 h3.2, tokAux_true_plain h4.1 h4.2]

theorem tokAux_escCharL (c : Char) (rest : List Char) :
    tokenizeAux (escCharL c ++ rest) true = tokenizeAux rest true := by
  unfold escCharL
  split_ifs with h1 h2 h3 h4 h5 h6 h7 h8 h9
  · subst h1; exact tokAux_esc_step _ _
  · subst h2; exact tokAux_esc_step _ _
  · subst h3; exact tokAux_esc_step _ _
  · subst h4; exact tokAux_esc_step _ _
  · subst h5; exact tokAux_esc_step _ _
  · subst h6; exact tokAux_esc_step _ _
  · subst h7; exact tokAux_esc_step _ _
  · simp only [List.cons_append]
    rw [tokAux_esc_step, tokAux_hex4]
  · simp only [List.cons_append, List.append_assoc]
    rw [tokAux_esc_step, tokAux_hex4, tokAux_esc_step, tokAux_hex4]
  · simp only [List.cons_append, List.nil_append]
    exact tokAux_true_plain h1 h2 rest

theorem tokAux_escapeList (l : List Char) (rest : List Char) :
    tokenizeAux (escapeList l ++ rest) true = tokenizeAux rest true := by
  induction l with
  | nil => simp [escapeList]
  | cons c cs ih =>
    simp only [escapeList, List.append_assoc]
    rw [tokAux_escCharL, ih]

theorem tokAux_pyJsonStr (s : String) (rest : List Char) :
    tokenizeAux ((pyJsonStr s).data ++ rest) false =
      (tokenizeAux rest false).map (fun t => JTok.str :: t) := by
  show tokenizeAux (('"' :: (escapeList s.data ++ ['"'])) ++ rest) false = _
  simp only [List.cons_append, List.append_assoc, List.singleton_append, List.nil_append]
  rw [tokAux_quote_false, tokAux_escapeList, tokAux_quote_true]

theorem tokAux_lbracket (x : List Char) :
    tokenizeAux ('[' :: x) false = (tokenizeAux x false).map (fun t => JTok.lbracket :: t) := rfl

theorem tokAux_rbracket (x : List Char) :
    tokenizeAux (']' :: x) false = (tokenizeAux x false).map (fun t => JTok.rbracket :: t) := rfl

theorem tokAux_lbrace (x : List Char) :
    tokenizeAux ('\x7b' :: x) false = (tokenizeAux x false).map (fun t => JTok.lbrace :: t) := rfl

theorem tokAux_rbrace (x : List Char) :
    tokenizeAux ('\x7d' :: x) false = (tokenizeAux x false).map (fun t => JTok.rbrace :: t) := rfl

theorem tokAux_comma (x : List Char) :
    tokenizeAux (',' :: x) false = (tokenizeAux x false).map (fun t => JTok.comma :: t) := rfl

theorem tokAux_colon (x : List Char) :
    tokenizeAux (':' :: x) false = (tokenizeAux x false).map (fun t => JTok.colon :: t) := rfl

theorem tokAux_none {c : Char} (h1 : ¬ c = '"')
    (hws : ¬ (c = ' ' ∨ c = '\n' ∨ c = '\t' ∨ c = '\r'))
    (h3 : ¬ c = '[') (h4 : ¬ c = ']') (h5 : ¬ c = '\x7b') (h6 : ¬ c = '\x7d')
    (h7 : ¬ c = ',') (h8 : ¬ c = ':') (x : List Char) :
    tokenizeAux (c :: x) false = none := by
  rw [tokenizeAux.eq_5, if_neg h1, if_neg hws, if_neg h3, if_neg h4, if_neg h5, if_neg h6,
    if_neg h7, if_neg h8]

theorem tokAux_ws {c : Char} (h1 : ¬ c = '"')
    (hws : c = ' ' ∨ c = '\n' ∨ c = '\t' ∨ c = '\r') (x : List Char) :
    tokenizeAux (c :: x) false = tokenizeAux x false := by
  rw [tokenizeAux.eq_5, if_neg h1, if_pos hws]

theorem tokAux_append : ∀ (l1 : List Char) (b : Bool) (t1 : List JTok),
    tokenizeAux l1 b = some t1 → ∀ (l2 : List Char),
      tokenizeAux (l1 ++ l2) b = (tokenizeAux l2 false).map (fun t => t1 ++ t)
  | [], false, t1, h, l2 => by
    rw [tokenizeAux.eq_1] at h
    injection h with h
    subst h
    cases htok : tokenizeAux l2 false <;> simp [htok]
  | [], true, t1, h, l2 => by
    rw [tokenizeAux.eq_2] at h
    exact Option.noConfusion h
  | c :: [], true, t1, h, l2 => by
    by_cases h1 : c = '"'
    · subst h1
      rw [tokAux_quote_true] at h
      rw [tokenizeAux.eq_1] at h
      simp at h
      subst h
      simp only [List.cons_append, List.nil_append]
      rw [tokAux_quote_true]
    · by_cases h2 : c = '\\'
      · subst h2
        rw [tokenizeAux.eq_3, if_neg (by decide), if_pos rfl] at h
        exact Option.noConfusion h
      · rw [tokAux_true_plain h1 h2, tokenizeAux.eq_2] at h
        exact Option.noConfusion h
  | c :: c2 :: r2, true, t1, h, l2 => by
    by_cases h1 : c = '"'
    · subst h1
      rw [tokAux_quote_true] at h
      cases htok : tokenizeAux (c2 :: r2) false with
      | none => rw [htok] at h; exact Option.noConfusion h
      | some t' =>
        rw [htok] at h
        injection h with h
        subst h
        rw [List.cons_append, tokAux_quote_true,
          tokAux_append (c2 :: r2) false t' htok l2, Option.map_map]
        cases tokenizeAux l2 false <;> simp
    · by_cases h2 : c = '\\'
      · subst h2
        rw [tokAux_esc_step] at h
        rw [List.cons_append, List.cons_append, tokAux_esc_step]
        exact tokAux_append r2 true t1 h l2
      · rw [tokAux_true_plain h1 h2] at h
        rw [List.cons_append, tokAux_true_plain h1 h2]
        exact tokAux_append (c2 :: r2) true t1 h l2
  | c :: r, false, t1, h, l2 => by
    by_cases h1 : c = '"'
    · subst h1
      rw [tokAux_quote_false] at h
      rw [List.cons_append, tokAux_quote_false]
      exact tokAux_append r true t1 h l2
    · by_cases hws : c = ' ' ∨ c = '\n' ∨ c = '\t' ∨ c = '\r'
      · rw [tokAux_ws h1 hws] at h
        rw [List.cons_append, tokAux_ws h1 hws]
        exact tokAux_append r false t1 h l2
      · have key : ∀ (tk : JTok),
            (∀ x, tokenizeAux (c :: x) false = (tokenizeAux x false).map (fun t => tk :: t)) →
            tokenizeAux ((c :: r) ++ l2) false = (tokenizeAux l2 false).map (fun t => t1 ++ t) := by
          intro tk e1
          rw [e1] at h
          cases htok : tokenizeAux r false with
          | none => rw [htok] at h; exact Option.noConfusion h
          | some t' =>
            rw [htok] at h
            injection h with h
            subst h
            rw [List.cons_append, e1, tokAux_append r false t' htok l2, Option.map_map]
            cases tokenizeAux l2 false <;> simp
        by_cases h3 : c = '['
        · exact key JTok.lbracket (fun x => by subst h3; exact tokAux_lbracket x)
        · by_cases h4 : c = ']'
          · exact key JTok.rbracket (fun x => by subst h4; exact tokAux_rbracket x)
          · by_cases h5 : c = '\x7b'
            · exact key JTok.lbrace (fun x => by subst h5; exact tokAux_lbrace x)
            · by_cases h6 : c = '\x7d'
              · exact key JTok.rbrace (fun x => by subst h6; exact tokAux_rbrace x)
              · by_cases h7 : c = ','
                · exact key JTok.comma (fun x => by subst h7; exact tokAux_comma x)
                · by_cases h8 : c = ':'
                  · exact key JTok.colon (fun x => by subst h8; exact tokAux_colon x)
                  · rw [tokAux_none h1 hws h3 h4 h5 h6 h7 h8] at h
                    exact Option.noConfusion h
termination_by l1 _ _ _ _ => l1.length
decreasing_by all_goals (simp [List.length_cons]; try omega)

/-! ## Tokenising the serialised output -/

theorem tok_chunk_obj1 : tokenizeAux ("\x7b\n        \"directory\": ").data false =
    some [JTok.lbrace, JTok.str, JTok.colon] := by decide

theorem tok_chunk_obj2 : tokenizeAux (",\n        \"command\": ").data false =
    some [JTok.comma, JTok.str, JTok.colon] := by decide

theorem tok_chunk_obj3 : tokenizeAux (",\n        \"file\": ").data false =
    some [JTok.comma, JTok.str, JTok.colon] := by decide

theorem tok_chunk_obj4 : tokenizeAux ("\n    \x7d").data false = some [JTok.rbrace] := by decide

theorem tok_chunk_sep : tokenizeAux (",\n    ").data false = some [JTok.comma] := by decide

theorem tok_chunk_open : tokenizeAux ("[\n    ").data false = some [JTok.lbracket] := by decide

theorem tok_chunk_close : tokenizeAux ("\n]").data false = some [JTok.rbracket] := by decide

theorem tokAux_entry (e : CompileEntry) :
    tokenizeAux (pyDumpEntry e).data false = some objToks := by
  show tokenizeAux ("\x7b\n        \"directory\": " ++ pyJsonStr e.directory ++
    ",\n        \"command\": " ++ pyJsonStr e.command ++
    ",\n        \"file\": " ++ pyJsonStr e.file ++ "\n    \x7d").data false = some objToks
  simp only [String.data_append, List.append_assoc]
  rw [tokAux_append _ false _ tok_chunk_obj1, tokAux_pyJsonStr,
    tokAux_append _ false _ tok_chunk_obj2, tokAux_pyJsonStr,
    tokAux_append _ false _ tok_chunk_obj3, tokAux_pyJsonStr,
    tok_chunk_obj4]
  rfl

theorem tokAux_items : ∀ (es : List CompileEntry) (e : CompileEntry),
    tokenizeAux (pyDumpItems (e :: es)).data false = some (objToks ++ sepObjs es.length)
  | [], e => by
    show tokenizeAux (pyDumpEntry e).data false = _
    rw [tokAux_entry]
    simp [sepObjs]
  | e2 :: es2, e => by
    show tokenizeAux (pyDumpEntry e ++ ",\n    " ++ pyDumpItems (e2 :: es2)).data false = _
    simp only [String.data_append, List.append_assoc]
    rw [tokAux_append _ false _ (tokAux_entry e), tokAux_append _ false _ tok_chunk_sep,
      tokAux_items es2 e2]
    simp [sepObjs, List.length_cons, List.append_assoc]

theorem tokenize_pyDump (e : CompileEntry) (es : List CompileEntry) :
    tokenize (pyDump (e :: es)) =
      some (JTok.lbracket :: (objToks ++ sepObjs es.length ++ [JTok.rbracket])) := by
  show tokenizeAux ("[\n    " ++ pyDumpItems (e :: es) ++ "\n]").data false = _
  simp only [String.data_append, List.append_assoc]
  rw [tokAux_append _ false _ tok_chunk_open, tokAux_append _ false _ (tokAux_items es e),
    tok_chunk_close]
  simp [List.append_assoc]

/-! ## Counting lemmas for the JSON checker -/

theorem jsonArrayCount_eq (s : String) (r : List JTok)
    (h : tokenize s = some (JTok.lbracket :: r)) :
    jsonArrayCount s =
      if r = [JTok.rbracket] then some 0 else countLoop (JTok.comma :: r) 0 := by
  unfold jsonArrayCount
  rw [h]

theorem countLoop_obj (r : List JTok) (n : Nat) :
    countLoop ((JTok.comma :: objToks) ++ r) n = countLoop r (n + 1) := rfl

theorem countLoop_sepObjs : ∀ (k n : Nat),
    countLoop (sepObjs k ++ [JTok.rbracket]) n = some (n + k)
  | 0, n => by
    simp only [sepObjs, List.nil_append, Nat.add_zero]
    rfl
  | k + 1, n => by
    show countLoop (((JTok.comma :: objToks) ++ sepObjs k) ++ [JTok.rbracket]) n = _
    rw [List.append_assoc, countLoop_obj, countLoop_sepObjs k (n + 1)]
    congr 1
    omega

theorem jsonArrayCount_pyDump : ∀ (entries : List CompileEntry),
    jsonArrayCount (pyDump entries) = some entries.length
  | [] => by decide
  | e :: es => by
    rw [jsonArrayCount_eq _ _ (tokenize_pyDump e es),
      if_neg (by simp [objToks] : ¬ objToks ++ sepObjs es.length ++ [JTok.rbracket] = [JTok.rbracket])]
    rw [show JTok.comma :: (objToks ++ sepObjs es.length ++ [JTok.rbracket]) =
      (JTok.comma :: objToks) ++ (sepObjs es.length ++ [JTok.rbracket]) from by
        simp [List.append_assoc]]
    rw [countLoop_obj, countLoop_sepObjs]
    simp [List.length_cons]
    omega

/-! ## Claim theorems -/

/-- C1, counterexample: with the `src` directory absent (`srcTree = none`), a
concrete run does not abort — it writes `compile_commands.json` containing
`[]` and prints the success line, refuting the claim that such a run fails
and never produces an empty database. -/
theorem claim1_counterexample :
    fsRead (runMain "/proj" none ⟨[], []⟩).files "compile_commands.json" = some "[]" ∧
    (runMain "/proj" none ⟨[], []⟩).stdout = ["[+] compile_commands.json generated."] :=
  ⟨rfl, rfl⟩

/-- C1, amended: when `srcDir` does not exist, `os.walk` silently yields
nothing, so every such run succeeds, overwrites `compile_commands.json` with
the empty database `[]`, and prints the confirmation line. -/
theorem claim1_amended_missing_src_silently_empty (pr : String) (w : World) :
    fsRead (runMain pr none w).files "compile_commands.json" = some "[]" ∧
    (runMain pr none w).stdout = w.stdout ++ ["[+] compile_commands.json generated."] :=
  ⟨(fsRead_fsWrite_same w.files _ _).trans (congrArg some rfl), rfl⟩

/-- C2: `getCppFiles` returns exactly the files of the tree (recursively,
including subdirectories) whose name ends with the literal suffix `".cpp"`,
and no others. -/
theorem claim2_collect_exact (dir : String) (node : FSNode) (p : String) :
    p ∈ getCppFiles dir (some node) ↔
      ∃ name, (p, name) ∈ filesUnder dir node ∧ ∃ stem, name = stem ++ ".cpp" := by
  rw [mem_getCppFiles_iff]
  constructor
  · rintro ⟨fr, hfr, f, hf, hcpp, hp⟩
    refine ⟨f, ?_, (pyEndsWith_iff f ".cpp").mp hcpp⟩
    rw [mem_filesUnder]
    simp only [osWalk, List.mem_cons] at hfr
    rcases hfr with h1 | h2
    · subst h1
      exact Or.inl ⟨hf, hp⟩
    · exact Or.inr ⟨fr, h2, hf, hp⟩
  · rintro ⟨name, hmem, hstem⟩
    rw [mem_filesUnder] at hmem
    have hcpp : pyEndsWith name ".cpp" = true := (pyEndsWith_iff name ".cpp").mpr hstem
    rcases hmem with ⟨hf, hp⟩ | ⟨fr, hfr, hf, hp⟩
    · exact ⟨⟨dir, nodeDirNames node, nodeFiles node⟩,
        by rw [osWalk]; exact List.mem_cons_self _ _, name, hf, hcpp, hp⟩
    · exact ⟨fr, by rw [osWalk]; exact List.mem_cons_of_mem _ hfr, name, hf, hcpp, hp⟩

/-- C3: for every file discovered under `srcDir`, the `file` field of its
entry is the path relative to the project root: joining the root, a
separator, and the field gives back the discovered path. -/
theorem claim3_path_roundtrip (pr : String) (node : FSNode) (F : String)
    (habs : pyStartsWith pr "/" = true) (hslash : pyEndsWith pr "/" = false)
    (hv : validNamesB node = true)
    (hF : F ∈ getCppFiles (srcDir pr) (some node)) :
    pr ++ "/" ++ (generateCompileCommand pr F).file = F := by
  obtain ⟨rest, hrest⟩ := getCppFiles_under_root habs hslash hv hF
  show pr ++ "/" ++ osPathRelpath F pr = F
  rw [hrest, osPathRelpath_append]

/-- C3 witness. -/
theorem claim3_witness :
    pyStartsWith "/p" "/" = true ∧ pyEndsWith "/p" "/" = false ∧
    validNamesB (FSNode.fileEntry "a.cpp" FSNode.nil) = true ∧
    "/p/src/a.cpp" ∈ getCppFiles (srcDir "/p") (some (FSNode.fileEntry "a.cpp" FSNode.nil)) ∧
    "/p" ++ "/" ++ (generateCompileCommand "/p" "/p/src/a.cpp").file = "/p/src/a.cpp" :=
  ⟨by decide, by decide, by decide, by decide,
    claim3_path_roundtrip "/p" (FSNode.fileEntry "a.cpp" FSNode.nil) "/p/src/a.cpp"
      (by decide) (by decide) (by decide) (by decide)⟩

/-- C4: every generated command string contains the five required substrings:
`-std=c++20`, `-Wall`, `-Wextra`, `-Iinclude`, and `-c ` followed by the
entry's `file` field. -/
theorem claim4_command_flags (pr F : String) :
    strContainsSubstr (generateCompileCommand pr F).command "-std=c++20" ∧
    strContainsSubstr (generateCompileCommand pr F).command "-Wall" ∧
    strContainsSubstr (generateCompileCommand pr F).command "-Wextra" ∧
    strContainsSubstr (generateCompileCommand pr F).command "-Iinclude" ∧
    strContainsSubstr (generateCompileCommand pr F).command
      ("-c " ++ (generateCompileCommand pr F).file) := by
  refine ⟨?_, ?_, ?_, ?_, ?_⟩
  · exact substr_sandwich "clang++ " "-std=c++20" " -Wall -Wextra -Iinclude -c "
      (osPathRelpath F pr) " -o /dev/null" (by decide)
  · exact substr_sandwich "clang++ -std=c++20 " "-Wall" " -Wextra -Iinclude -c "
      (osPathRelpath F pr) " -o /dev/null" (by decide)
  · exact substr_sandwich "clang++ -std=c++20 -Wall " "-Wextra" " -Iinclude -c "
      (osPathRelpath F pr) " -o /dev/null" (by decide)
  · exact substr_sandwich "clang++ -std=c++20 -Wall -Wextra " "-Iinclude" " -c "
      (osPathRelpath F pr) " -o /dev/null" (by decide)
  · exact substr_tailpiece "clang++ -std=c++20 -Wall -Wextra -Iinclude " "-c "
      (osPathRelpath F pr) " -o /dev/null" (by decide)

/-- C5: every entry of the produced database carries the invocation root as
its `directory` (constant across the run, an absolute path), and its `file`
field is relative to that root (joining them gives back the discovered
file). -/
theorem claim5_directory_constant (pr : String) (node : FSNode) (e : CompileEntry)
    (habs : pyStartsWith pr "/" = true) (hslash : pyEndsWith pr "/" = false)
    (hv : validNamesB node = true)
    (he : e ∈ mainEntries pr (some node)) :
    e.directory = pr ∧ pyStartsWith e.directory "/" = true ∧
    ∃ F ∈ getCppFiles (srcDir pr) (some node), pr ++ "/" ++ e.file = F := by
  simp only [mainEntries, List.mem_map] at he
  obtain ⟨F, hF, he⟩ := he
  subst he
  refine ⟨rfl, habs, F, hF, ?_⟩
  obtain ⟨rest, hrest⟩ := getCppFiles_under_root habs hslash hv hF
  show pr ++ "/" ++ osPathRelpath F pr = F
  rw [hrest, osPathRelpath_append]

/-- C5 witness. -/
theorem claim5_witness :
    pyStartsWith "/p" "/" = true ∧ pyEndsWith "/p" "/" = false ∧
    validNamesB (FSNode.fileEntry "a.cpp" FSNode.nil) = true ∧
    generateCompileCommand "/p" "/p/src/a.cpp" ∈
      mainEntries "/p" (some (FSNode.fileEntry "a.cpp" FSNode.nil)) ∧
    ((generateCompileCommand "/p" "/p/src/a.cpp").directory = "/p" ∧
      pyStartsWith (generateCompileCommand "/p" "/p/src/a.cpp").directory "/" = true ∧
      ∃ F ∈ getCppFiles (srcDir "/p") (some (FSNode.fileEntry "a.cpp" FSNode.nil)),
        "/p" ++ "/" ++ (generateCompileCommand "/p" "/p/src/a.cpp").file = F) :=
  ⟨by decide, by decide, by decide, by decide,
    claim5_directory_constant "/p" (FSNode.fileEntry "a.cpp" FSNode.nil)
      (generateCompileCommand "/p" "/p/src/a.cpp")
      (by decide) (by decide) (by decide) (by decide)⟩

/-- C6: the written output is a JSON document that the checker accepts as an
array of exactly as many (object) elements as there are discovered `.cpp`
files; in particular with no `.cpp` files the output text is `"[]"`. -/
theorem claim6_json_array (pr : String) (t : Option FSNode) :
    jsonArrayCount (mainOutput pr t) = some (getCppFiles (srcDir pr) t).length ∧
    (getCppFiles (srcDir pr) t = [] → mainOutput pr t = "[]") := by
  constructor
  · simp only [mainOutput, mainEntries]
    rw [jsonArrayCount_pyDump, List.length_map]
  · intro h
    simp only [mainOutput, mainEntries, h, List.map_nil]
    rfl

/-- C6 witness. -/
theorem claim6_witness :
    getCppFiles (srcDir "/p") (some (FSNode.fileEntry "readme.md" FSNode.nil)) = [] ∧
    mainOutput "/p" (some (FSNode.fileEntry "readme.md" FSNode.nil)) = "[]" :=
  ⟨by decide, (claim6_json_array "/p" (some (FSNode.fileEntry "readme.md" FSNode.nil))).2
    (by decide)⟩

/-- C7: two runs over the same source tree (same directory iteration order)
write byte-identical `compile_commands.json` contents, whatever the prior
state of the filesystem or stdout. -/
theorem claim7_deterministic (pr : String) (t1 t2 : Option FSNode) (w1 w2 : World)
    (h : t1 = t2) :
    fsRead (runMain pr t1 w1).files "compile_commands.json" =
      fsRead (runMain pr t2 w2).files "compile_commands.json" := by
  subst h
  rw [show (runMain pr t1 w1).files =
      fsWrite w1.files "compile_commands.json" (mainOutput pr t1) from rfl,
    show (runMain pr t1 w2).files =
      fsWrite w2.files "compile_commands.json" (mainOutput pr t1) from rfl,
    fsRead_fsWrite_same, fsRead_fsWrite_same]

/-- C7 witness. -/
theorem claim7_witness :
    fsRead (runMain "/p" (some FSNode.nil) ⟨[], []⟩).files "compile_commands.json" =
      fsRead (runMain "/p" (some FSNode.nil) ⟨[("a", "b")], ["c"]⟩).files
        "compile_commands.json" :=
  claim7_deterministic "/p" (some FSNode.nil) (some FSNode.nil) ⟨[], []⟩
    ⟨[("a", "b")], ["c"]⟩ rfl

/-- C8: a run's only effects are one write of `compile_commands.json`
(shadowing any previous content at that path), every other file left
untouched, and exactly one confirmation line appended to stdout. -/
theorem claim8_frame (pr : String) (t : Option FSNode) (w : World) :
    fsRead (runMain pr t w).files "compile_commands.json" = some (mainOutput pr t) ∧
    (∀ q, q ≠ "compile_commands.json" → fsRead (runMain pr t w).files q = fsRead w.files q) ∧
    (runMain pr t w).stdout = w.stdout ++ ["[+] compile_commands.json generated."] :=
  ⟨fsRead_fsWrite_same w.files _ _,
    fun q hq => fsRead_fsWrite_other w.files _ _ q hq, rfl⟩

/-- C8 witness. -/
theorem claim8_witness :
    ("notes.txt" : String) ≠ "compile_commands.json" ∧
    fsRead (runMain "/p" none ⟨[("notes.txt", "hello")], []⟩).files "notes.txt" =
      some "hello" :=
  ⟨by decide,
    ((claim8_frame "/p" none ⟨[("notes.txt", "hello")], []⟩).2.1 "notes.txt"
      (by decide)).trans (by decide)⟩

/-- C9: the suffix test also matches when the whole basename is `".cpp"`, so
such a hidden file is collected; the test is case-sensitive, so a `".CPP"`
entry contributes nothing. -/
theorem claim9_suffix_edge_cases (dir : String) (rest : FSNode) :
    osPathJoin dir ".cpp" ∈ getCppFiles dir (some (FSNode.fileEntry ".cpp" rest)) ∧
    getCppFiles dir (some (FSNode.fileEntry ".CPP" rest)) = getCppFiles dir (some rest) ∧
    pyEndsWith ".cpp" ".cpp" = true ∧ pyEndsWith ".CPP" ".cpp" = false := by
  refine ⟨?_, rfl, by decide, by decide⟩
  rw [mem_getCppFiles_iff]
  exact ⟨⟨dir, nodeDirNames (FSNode.fileEntry ".cpp" rest),
      nodeFiles (FSNode.fileEntry ".cpp" rest)⟩,
    by rw [osWalk]; exact List.mem_cons_self _ _,
    ".cpp", List.mem_cons_self _ _, by decide, rfl⟩

/-- C10: every collected path is built by joining a walked directory (itself
below the argument directory) with one of its file names, hence lies below
the argument directory. -/
theorem claim10_containment (dir : String) (node : FSNode) (p : String)
    (hv : validNamesB node = true) (hp : p ∈ getCppFiles dir (some node)) :
    ∃ fr ∈ osWalk dir node, (∃ s, fr.root = dir ++ s) ∧
      ∃ f ∈ fr.files, p = osPathJoin fr.root f ∧ ∃ s2, p = dir ++ s2 := by
  obtain ⟨fr, hfr, f, hf, _, hjoin⟩ := (mem_getCppFiles_iff dir node p).mp hp
  obtain ⟨⟨s, hs⟩, hfiles⟩ := walk_shape node dir hv fr hfr
  obtain ⟨y, hy⟩ := osPathJoin_shape fr.root (hfiles f hf)
  exact ⟨fr, hfr, ⟨s, hs⟩, f, hf, hjoin, s ++ y, by rw [hjoin, hy, hs, String.append_assoc]⟩

/-- C10 witness. -/
theorem claim10_witness :
    validNamesB (FSNode.fileEntry "a.cpp" FSNode.nil) = true ∧
    "/d/a.cpp" ∈ getCppFiles "/d" (some (FSNode.fileEntry "a.cpp" FSNode.nil)) ∧
    ∃ fr ∈ osWalk "/d" (FSNode.fileEntry "a.cpp" FSNode.nil),
      (∃ s, fr.root = "/d" ++ s) ∧
      ∃ f ∈ fr.files, "/d/a.cpp" = osPathJoin fr.root f ∧ ∃ s2, "/d/a.cpp" = "/d" ++ s2 :=
  ⟨by decide, by decide,
    claim10_containment "/d" (FSNode.fileEntry "a.cpp" FSNode.nil) "/d/a.cpp"
      (by decide) (by decide)⟩
